import Mathlib

set_option maxRecDepth 100000

/-!
# Verification of juff's configuration resolution and rule-selection engine

Shallow embedding of `src/juff/config.py` (extend resolution, config merging,
facade accessors, pattern matching, rule selection and tool dispatch),
`src/juff/tools/flake8.py` (`_prefix_matches_code`) and
`src/example_ruff_parser.py` (`_derive_target_version_from_requires_python`).

Conventions of the embedding:
* Parsed TOML documents are modelled by the mutual inductive family
  `TomlVal` / `TomlArr` / `TomlTbl`; a table is an ordered association list,
  mirroring Python's insertion-ordered `dict`.  Python dict assignment
  updates an existing entry in place and appends otherwise (`configSet`).
* Strings are processed at the `List Char` level so that every function is
  kernel-evaluable; `String` wrappers convert via `String.data`.  Python's
  `str.isalpha` / `str.isdigit` / `str.strip` are Unicode-aware; the inputs
  in scope are ASCII, where `Char.isAlpha` / `Char.isDigit` /
  `Char.isWhitespace` agree with them.
* Recursions that are not structural (the glob matcher, the extend resolver)
  take an explicit fuel argument; the wrappers pass a bound that dominates
  the recursion depth, and for the extend resolver the fuel-irrelevance
  theorem for claim C4 proves that any fuel above the bound gives the same
  result.
* The filesystem seen by the extend resolver is an association list from
  canonical path strings to already-parsed documents; path canonicalisation
  (`expanduser`, joining with the project root, `Path.resolve`) is taken as
  the identity on these canonical names, which is faithful for documents
  whose `extend` values are exactly the canonical names used as keys.
-/

mutual

/-- A parsed TOML value as produced by `tomllib.load` (floats and dates do not
occur in the configurations under study). -/
inductive TomlVal where
  | str : String → TomlVal
  | int : Int → TomlVal
  | bool : Bool → TomlVal
  | arr : TomlArr → TomlVal
  | table : TomlTbl → TomlVal

/-- A TOML array (Python `list`). -/
inductive TomlArr where
  | nil : TomlArr
  | cons : TomlVal → TomlArr → TomlArr

/-- A TOML table (Python insertion-ordered `dict[str, Any]`). -/
inductive TomlTbl where
  | nil : TomlTbl
  | cons : String → TomlVal → TomlTbl → TomlTbl

end

/-- A configuration document: the top level of a parsed TOML file
(`dict[str, Any]` in the source). -/
abbrev Config := TomlTbl

/-- Build a table from a list of key/value pairs (literal notation helper;
the keys of a genuine parsed document are distinct). -/
def tblOf : List (String × TomlVal) → TomlTbl
  | [] => .nil
  | (k, v) :: rest => .cons k v (tblOf rest)

/-- Build a TOML array from a list of values. -/
def arrOf : List TomlVal → TomlArr
  | [] => .nil
  | v :: rest => .cons v (arrOf rest)

/-- A TOML array of strings (the form every rule/pattern list in scope has). -/
def strArr (ss : List String) : TomlVal := .arr (arrOf (ss.map .str))

/-- Python `d.get(key)` on a dict modelled as an ordered association list:
the value of the first (for a genuine dict, unique) entry with that key. -/
def configGet : TomlTbl → String → Option TomlVal
  | .nil, _ => none
  | .cons k v rest, key => if k = key then some v else configGet rest key

/-- Python `d[key] = v`: update an existing entry in place (keeping its
position) or append a new one. -/
def configSet : TomlTbl → String → TomlVal → TomlTbl
  | .nil, key, v => .cons key v .nil
  | .cons k w rest, key, v =>
    if k = key then .cons k v rest else .cons k w (configSet rest key v)

/-- `JuffConfig._merge_configs` (config.py:280-303): start from a copy of the
parent, walk the child's items in order; the literal `extend` key is skipped;
when both sides hold tables at the same key the tables merge recursively;
otherwise the child's value replaces the parent's. -/
def mergeConfigs (parent child : TomlTbl) : TomlTbl :=
  match child with
  | .nil => parent
  | .cons k v rest =>
    if k = "extend" then mergeConfigs parent rest
    else
      let parent' :=
        match configGet parent k, v with
        | some (.table t1), .table t2 => configSet parent k (.table (mergeConfigs t1 t2))
        | _, _ => configSet parent k v
      mergeConfigs parent' rest
termination_by structural child

/-- The strings held by a TOML array; every array in the configurations in
scope holds only strings (Python would pass non-strings through unchanged,
but they never arise here). -/
def strsOfArr : TomlArr → List String
  | .nil => []
  | .cons (.str s) rest => s :: strsOfArr rest
  | .cons _ rest => strsOfArr rest

/-- The strings of an optional TOML value; `[]` both for a missing key and
for a non-array value (Python `list(...)` of the values in scope). -/
def strsOf : Option TomlVal → List String
  | some (.arr a) => strsOfArr a
  | _ => []

/-- A per-file-ignores style table (`pattern ↦ array of rule codes`) as a
list of (pattern, codes) pairs. -/
def pfiOfTbl : TomlTbl → List (String × List String)
  | .nil => []
  | .cons k v rest => (k, strsOf (some v)) :: pfiOfTbl rest

/-- A table-valued optional entry, as a (pattern, codes) list. -/
def pfiOf : Option TomlVal → List (String × List String)
  | some (.table t) => pfiOfTbl t
  | _ => []

/-- `DEFAULT_EXCLUDE` (config.py:102-125), the built-in exclusion patterns. -/
def DEFAULT_EXCLUDE : List String :=
  [".bzr", ".direnv", ".eggs", ".git", ".git-rewrite", ".hg", ".mypy_cache",
   ".nox", ".pants.d", ".pytype", ".ruff_cache", ".juff_cache", ".svn",
   ".tox", ".venv", "__pycache__", "__pypackages__", "_build", "buck-out",
   "dist", "node_modules", "venv"]

/-- `DEFAULT_INCLUDE` (config.py:128). -/
def DEFAULT_INCLUDE : List String := ["*.py", "*.pyi", "*.pyw"]

/-- `RULE_PREFIX_MAPPING` (config.py:17-87): rule-code families and the tool
that owns each, in source (insertion) order. -/
def RULE_PREFIX_MAPPING : List (String × String) :=
  [("E", "flake8"), ("W", "flake8"), ("F", "flake8"), ("C90", "flake8"),
   ("A", "flake8"), ("ANN", "flake8"), ("ARG", "flake8"), ("ASYNC", "flake8"),
   ("B", "flake8"), ("BLE", "flake8"), ("C4", "flake8"), ("COM", "flake8"),
   ("CPY", "flake8"), ("D", "flake8"), ("DJ", "flake8"), ("DTZ", "flake8"),
   ("EM", "flake8"), ("ERA", "flake8"), ("EXE", "flake8"), ("FA", "flake8"),
   ("FBT", "flake8"), ("FIX", "flake8"), ("G", "flake8"), ("ICN", "flake8"),
   ("INP", "flake8"), ("INT", "flake8"), ("ISC", "flake8"), ("LOG", "flake8"),
   ("N", "flake8"), ("PD", "flake8"), ("PIE", "flake8"), ("PT", "flake8"),
   ("PTH", "flake8"), ("PYI", "flake8"), ("Q", "flake8"), ("RET", "flake8"),
   ("RSE", "flake8"), ("S", "flake8"), ("SIM", "flake8"), ("SLF", "flake8"),
   ("SLOT", "flake8"), ("T10", "flake8"), ("T20", "flake8"), ("TCH", "flake8"),
   ("TD", "flake8"), ("TID", "flake8"), ("TRY", "flake8"), ("YTT", "flake8"),
   ("DOC", "pydoclint"), ("FURB", "refurb"), ("PERF", "perflint"),
   ("PLC", "pylint"), ("PLE", "pylint"), ("PLR", "pylint"), ("PLW", "pylint"),
   ("I", "isort"), ("UP", "pyupgrade"), ("FLY", "flynt"), ("format", "black"),
   ("AIR", "ruff"), ("FAST", "ruff"), ("NPY", "ruff"), ("PGH", "ruff"),
   ("RUF", "ruff")]

/-- Association-list lookup (Python `mapping[key]` / `fs` path lookup). -/
def alistGet {α : Type} : List (String × α) → String → Option α
  | [], _ => none
  | (k, v) :: rest, key => if k = key then some v else alistGet rest key

/-- Python `code.startswith(pre)` via character lists. -/
def strStartsWith (s pre : String) : Bool := pre.data.isPrefixOf s.data

/-- Python `needle in hay` (substring containment) via character lists. -/
def isSubstr : List Char → List Char → Bool
  | needle, [] => needle.isPrefixOf []
  | needle, c :: rest => needle.isPrefixOf (c :: rest) || isSubstr needle rest

/-- Split a character list on a separator character (Python `s.split(sep)`:
`""` splits to `[""]`, separators at the ends produce empty segments). -/
def splitOnChar (sep : Char) : List Char → List (List Char)
  | [] => [[]]
  | c :: rest =>
    if c = sep then [] :: splitOnChar sep rest
    else
      match splitOnChar sep rest with
      | h :: t => (c :: h) :: t
      | [] => [[c]]

/-- Python `"/".join(parts)` on character lists. -/
def joinSlash : List (List Char) → List Char
  | [] => []
  | [x] => x
  | x :: xs => x ++ '/' :: joinSlash xs

/-- Python `s.strip()` (both inputs in scope are ASCII, where
`Char.isWhitespace` agrees with Python's whitespace classes). -/
def trimWs (l : List Char) : List Char :=
  ((l.dropWhile Char.isWhitespace).reverse.dropWhile Char.isWhitespace).reverse

/-- Python `pattern.rstrip("/")`. -/
def rstripSlashes (l : List Char) : List Char :=
  (l.reverse.dropWhile (fun c => c = '/')).reverse

/-- Python `s.replace("\\", "/")` (the separator normalisation; a one-char
needle, so a character map). -/
def normSlashes (l : List Char) : List Char :=
  l.map fun c => if c = '\\' then '/' else c

/-- Python `"**" in pattern`. -/
def hasDoubleStar : List Char → Bool
  | '*' :: '*' :: _ => true
  | _ :: rest => hasDoubleStar rest
  | [] => false

/-- Python `pattern.split("**")` (left-to-right, non-overlapping). -/
def splitOnStars : List Char → List (List Char)
  | '*' :: '*' :: rest => [] :: splitOnStars rest
  | c :: rest =>
    (match splitOnStars rest with
     | h :: t => (c :: h) :: t
     | [] => [[c]])
  | [] => [[]]

/-- Python `pattern.replace("**", "*")` (left-to-right, non-overlapping). -/
def replaceStars : List Char → List Char
  | '*' :: '*' :: rest => '*' :: replaceStars rest
  | c :: rest => c :: replaceStars rest
  | [] => []

/-- Single-segment glob matching, the semantics of Python
`fnmatch.fnmatch(name, pat)` on a POSIX system for patterns without `[`
character classes (none occur in the configurations under study; `[` is a
literal here): `*` matches any run of characters including `/`, `?` matches
exactly one character, anything else matches itself.  Fueled; the wrapper's
fuel bound dominates the recursion depth (each step lowers
`pat.length + name.length`). -/
def globMatchF : Nat → List Char → List Char → Bool
  | 0, _, _ => false
  | _ + 1, [], [] => true
  | _ + 1, [], _ :: _ => false
  | fuel + 1, '*' :: ps, [] => globMatchF fuel ps []
  | fuel + 1, '*' :: ps, c :: ns =>
    globMatchF fuel ps (c :: ns) || globMatchF fuel ('*' :: ps) ns
  | _ + 1, '?' :: _, [] => false
  | fuel + 1, '?' :: ps, _ :: ns => globMatchF fuel ps ns
  | _ + 1, _ :: _, [] => false
  | fuel + 1, p :: ps, c :: ns => p = c && globMatchF fuel ps ns

/-- `fnmatch.fnmatch(name, pat)` (argument order as in Python). -/
def fnmatchL (name pat : List Char) : Bool :=
  globMatchF (pat.length + name.length + 1) pat name

/-- `JuffConfig._matches_pattern` (config.py:876-910): normalise separators,
special-case patterns containing `**` (split on the first occurrence; empty
suffix matches everything; otherwise try every suffix of the path's
components against the glob suffix, falling back to a flat glob with `**`
collapsed to `*`), else a plain `fnmatch`. -/
def matchesPattern (filePath pattern : List Char) : Bool :=
  let fp := normSlashes filePath
  let pat := normSlashes pattern
  if hasDoubleStar pat then
    match splitOnStars pat with
    | [_, suffix] =>
      if suffix = [] then true
      else
        let suffix' := suffix.dropWhile (fun c => c = '/')
        let pathParts := splitOnChar '/' fp
        let loopHit := (List.range pathParts.length).any fun i =>
          let remaining := joinSlash (pathParts.drop i)
          fnmatchL remaining (suffix' ++ ['*']) ||
            fnmatchL remaining ('*' :: '/' :: (suffix' ++ ['*'])) ||
            fnmatchL remaining suffix'
        loopHit || fnmatchL fp (replaceStars pat)
    | _ => fnmatchL fp (replaceStars pat)
  else fnmatchL fp pat

/-- `JuffConfig.get_lint_config` (config.py:428-430): the `[lint]` table, or
an empty table when absent (a non-table value would fail in the source's
later subscripting and is outside the modelled domain). -/
def getLintConfig (c : Config) : TomlTbl :=
  match configGet c "lint" with
  | some (.table t) => t
  | _ => .nil

/-- `JuffConfig.get_format_config` (config.py:559-561). -/
def getFormatConfig (c : Config) : TomlTbl :=
  match configGet c "format" with
  | some (.table t) => t
  | _ => .nil

/-- `JuffConfig.get_selected_rules` (config.py:432-446): `lint.select` when
the key is present (even if empty), else the default `["E","F","W"]`, with
`lint.extend-select` always appended. -/
def getSelectedRules (c : Config) : List String :=
  let lint := getLintConfig c
  (match configGet lint "select" with
   | some v => strsOf (some v)
   | none => ["E", "F", "W"]) ++ strsOf (configGet lint "extend-select")

/-- `JuffConfig.get_ignored_rules` (config.py:448-454): `lint.ignore` plus the
deprecated `lint.extend-ignore`. -/
def getIgnoredRules (c : Config) : List String :=
  let lint := getLintConfig c
  strsOf (configGet lint "ignore") ++ strsOf (configGet lint "extend-ignore")

/-- `JuffConfig.get_exclude_patterns` (config.py:395-418): the configured
`exclude` (suppressing the defaults when the key is present) or
`DEFAULT_EXCLUDE`, then `extend-exclude`, then the section-specific
`lint.exclude` / `format.exclude` when a mode is given. -/
def getExcludePatterns (c : Config) (mode : Option String) : List String :=
  let patterns :=
    (match configGet c "exclude" with
     | some v => strsOf (some v)
     | none => DEFAULT_EXCLUDE) ++ strsOf (configGet c "extend-exclude")
  if mode = some "lint" then
    patterns ++ strsOf (configGet (getLintConfig c) "exclude")
  else if mode = some "format" then
    patterns ++ strsOf (configGet (getFormatConfig c) "exclude")
  else patterns

/-- `JuffConfig.is_file_excluded` (config.py:912-933): some pattern of the
composed exclude set glob-matches the normalised path, or the pattern with
trailing slashes stripped occurs as a literal substring of it. -/
def isFileExcluded (c : Config) (filePath : String) (mode : Option String) : Bool :=
  let fileStr := normSlashes filePath.data
  (getExcludePatterns c mode).any fun pat =>
    matchesPattern fileStr pat.data || isSubstr (rstripSlashes pat.data) fileStr

/-- `JuffConfig.is_rule_selected` (config.py:795-821): false when the rule is
(exactly or by prefix) ignored, else true when some selected entry is `ALL`,
equals the rule, or is a prefix of it. -/
def isRuleSelected (c : Config) (rule : String) : Bool :=
  let selected := getSelectedRules c
  let ignored := getIgnoredRules c
  if rule ∈ ignored then false
  else if ignored.any (fun ig => strStartsWith rule ig) then false
  else selected.any fun sel => sel = "ALL" || rule = sel || strStartsWith rule sel

/-- One step of the inner loop of `JuffConfig.get_tools_for_rules`
(config.py:864-869): keep the longer of the current best match and the next
catalog entry, when the rule equals or starts with that entry. -/
def bestStep (rule : String) (best : Option String) (pr : String × String) :
    Option String :=
  if rule = pr.1 || strStartsWith rule pr.1 then
    match best with
    | none => some pr.1
    | some b => if pr.1.length > b.length then some pr.1 else some b
  else best

/-- The inner loop of `JuffConfig.get_tools_for_rules`: the longest catalog
entry that the rule equals or starts with (ties cannot arise among distinct
prefixes of one rule). -/
def bestMatchFor (rule : String) : Option String :=
  RULE_PREFIX_MAPPING.foldl (bestStep rule) none

/-- Python `set.add` on a set modelled as a duplicate-free list (membership
is the only observation the theorems make). -/
def setInsert (s : List String) (x : String) : List String :=
  if x ∈ s then s else s ++ [x]

/-- Python `set.update` with an iterable. -/
def setUnion (s : List String) (xs : List String) : List String :=
  xs.foldl setInsert s

/-- The loop of `JuffConfig.get_tools_for_rules` (config.py:856-874): on
`ALL`, add every catalog tool and stop; otherwise add the tool of the
longest matching catalog entry, if any. -/
def toolsLoop : List String → List String → List String
  | [], tools => tools
  | rule :: rest, tools =>
    if rule = "ALL" then setUnion tools (RULE_PREFIX_MAPPING.map Prod.snd)
    else
      let tools' :=
        match bestMatchFor rule with
        | some b =>
          match alistGet RULE_PREFIX_MAPPING b with
          | some t => setInsert tools t
          | none => tools
        | none => tools
      toolsLoop rest tools'

/-- `JuffConfig.get_tools_for_rules` applied to a selection list (the source
reads the list from `get_selected_rules`). -/
def getToolsForRules (selected : List String) : List String :=
  toolsLoop selected []

/-- Append strings to a TOML array. -/
def arrAppendStrs : TomlArr → List String → TomlArr
  | .nil, rules => arrOf (rules.map .str)
  | .cons v a, rules => .cons v (arrAppendStrs a rules)

/-- Append rule codes (as strings) to a TOML array value: the in-place
`list.extend` that `get_per_file_ignores` performs on a list it shares with
the stored configuration. -/
def arrExtend : TomlVal → List String → TomlVal
  | .arr a, rules => .arr (arrAppendStrs a rules)
  | v, _ => v

/-- The loop of `JuffConfig.get_per_file_ignores` (config.py:527-532) over
the `extend-per-file-ignores` items, acting on the (shallow-copied) result
dict: a pattern already present has its code list extended, a new pattern is
added with a copy of its codes. -/
def pfiLoop : List (String × List String) → List (String × List String) →
    List (String × List String)
  | acc, [] => acc
  | acc, (p, rs) :: rest =>
    if p ∈ acc.map Prod.fst then
      pfiLoop (acc.map fun q => if q.1 = p then (q.1, q.2 ++ rs) else q) rest
    else pfiLoop (acc ++ [(p, rs)]) rest

/-- The in-place extension of the shared per-file-ignores lists. -/
def pfiMutate (base : TomlTbl) (extendTbl : List (String × List String)) : TomlTbl :=
  match base with
  | .nil => .nil
  | .cons p v rest =>
    match alistGet extendTbl p with
    | some rules => .cons p (arrExtend v rules) (pfiMutate rest extendTbl)
    | none => .cons p v (pfiMutate rest extendTbl)

/-- The lists that `ignores[pattern].extend(rules)` mutates are shared with
the stored configuration (`dict(...)` is a shallow copy), so the stored
`per-file-ignores` table gains the extend codes for every pattern present in
both tables.  This computes the post-call stored configuration. -/
def pfiStoredAfter (c : Config) : Config :=
  match configGet c "lint" with
  | some (.table lint) =>
    (match configGet lint "per-file-ignores" with
     | some (.table base) =>
       let extendTbl := pfiOf (configGet lint "extend-per-file-ignores")
       configSet c "lint" (.table (configSet lint "per-file-ignores"
         (.table (pfiMutate base extendTbl))))
     | _ => c)
  | _ => c

/-- `JuffConfig.get_per_file_ignores` (config.py:522-534) together with its
side effect: the returned pattern ↦ codes mapping, and the configuration as
stored after the call (the base table's lists are shared with the shallow
copy, so extending them mutates the stored document). -/
def getPerFileIgnoresRun (c : Config) : List (String × List String) × Config :=
  let lint := getLintConfig c
  let base := pfiOf (configGet lint "per-file-ignores")
  let extendTbl := pfiOf (configGet lint "extend-per-file-ignores")
  (pfiLoop base extendTbl, pfiStoredAfter c)

/-- The value `get_per_file_ignores` returns. -/
def getPerFileIgnores (c : Config) : List (String × List String) :=
  (getPerFileIgnoresRun c).1

/-- `JuffConfig.get_ignored_rules_for_file` (config.py:536-555): the global
ignore list, then the codes of every per-file pattern that matches the file
path, in table order. -/
def getIgnoredRulesForFile (c : Config) (filePath : String) : List String :=
  (getPerFileIgnores c).foldl
    (fun acc pr => if matchesPattern filePath.data pr.1.data then acc ++ pr.2 else acc)
    (getIgnoredRules c)

/-- `JuffConfig.is_rule_ignored_for_file` (config.py:935-953): some entry of
the combined ignore list is `ALL`, equals the rule, or is a prefix of it. -/
def isRuleIgnoredForFile (c : Config) (rule : String) (filePath : String) : Bool :=
  (getIgnoredRulesForFile c filePath).any fun ig =>
    ig = "ALL" || rule = ig || strStartsWith rule ig

/-- `JuffConfig.get_line_length` (config.py:357-359): the raw configured
value, defaulting to 88. -/
def getLineLength (c : Config) : TomlVal :=
  (configGet c "line-length").getD (.int 88)

/-- `JuffConfig.get_target_version` (config.py:365-367). -/
def getTargetVersion (c : Config) : TomlVal :=
  (configGet c "target-version").getD (.str "py311")

/-- The filesystem the extend resolver reads: canonical path ↦ parsed
document (for `pyproject.toml` the source descends into the tool table
first; the documents here are already the extracted tables). -/
abbrev ConfigFS := List (String × Config)

/-- `JuffConfig._resolve_extend` (config.py:226-278), fueled.  One step: a
missing or falsy `extend` value leaves the document as is; a target path
absent from the filesystem drops the reference (document used as is); a
path already seen breaks the cycle (document used as is); otherwise the
target document is resolved recursively with the path added to the seen set
and merged under the current document.  A non-string truthy `extend` value
would raise in the source and is outside the modelled domain. -/
def resolveExtendF (fs : ConfigFS) : Nat → Config → List String → Config
  | 0, config, _ => config
  | fuel + 1, config, seen =>
    match configGet config "extend" with
    | some (.str p) =>
      if p = "" then config
      else
        match alistGet fs p with
        | none => config
        | some parentDoc =>
          if p ∈ seen then config
          else mergeConfigs (resolveExtendF fs fuel parentDoc (p :: seen)) config
    | _ => config

/-- The number of filesystem paths not yet in the seen set: an upper bound
on the remaining extend-chain recursion depth. -/
def extMeasure (fs : ConfigFS) (seen : List String) : Nat :=
  ((fs.map Prod.fst).dedup.filter (fun k => decide (k ∉ seen))).length

/-- `_resolve_extend` from the entry point: fuel `fs.length + 1` dominates
`extMeasure fs [] + 1`, so by `resolveExtendF_fuel_irrelevant` the result is
the recursion's true fixpoint. -/
def resolveExtend (fs : ConfigFS) (config : Config) : Config :=
  resolveExtendF fs (fs.length + 1) config []

/-- `Flake8Tool._prefix_matches_code` (tools/flake8.py:268-305) over
character lists: exact match; else the code must start with the prefix; a
single-letter alphabetic prefix additionally requires the next character of
the code to be a digit, and `E` never matches codes starting `E8` (those are
flake8-eradicate's, selected only via `ERA`/`E8`). -/
def prefixMatchesCodeL (pre code : List Char) : Bool :=
  if code = pre then true
  else if !(pre.isPrefixOf code) then false
  else
    match pre with
    | [p] =>
      if p.isAlpha then
        match code with
        | _ :: c1 :: _ =>
          if !c1.isDigit then false
          else if pre = ['E'] && ['E', '8'].isPrefixOf code then false
          else true
        | _ => false
      else true
    | _ => true

/-- String wrapper for `_prefix_matches_code`. -/
def prefixMatchesCode (pre code : String) : Bool :=
  prefixMatchesCodeL pre.data code.data

/-- Membership in the regex class `[><=~!]`. -/
def opChar (c : Char) : Bool :=
  c = '>' || c = '<' || c = '=' || c = '~' || c = '!'

/-- Digit run to a number (`int()` on a nonempty digit string). -/
def digitsToNat (ds : List Char) : Nat :=
  ds.foldl (fun a c => a * 10 + (c.toNat - 48)) 0

/-- The version group `[0-9]+(?:\.[0-9]+)*` of the specifier regex, scanned
greedily from a list that starts with a digit: digit runs separated by dots,
stopping before a dot not followed by a digit (trailing text is ignored, as
`re.match` is not anchored at the end). -/
def versionScan : List Char → Nat → List Nat → List Nat
  | [], cur, acc => (cur :: acc).reverse
  | c :: rest, cur, acc =>
    if c.isDigit then versionScan rest (cur * 10 + (c.toNat - 48)) acc
    else if c = '.' then
      match rest with
      | d :: rest' =>
        if d.isDigit then versionScan rest' (d.toNat - 48) (cur :: acc)
        else (cur :: acc).reverse
      | [] => (cur :: acc).reverse
    else (cur :: acc).reverse

/-- `re.match(r"([><=~!]{1,2})\s*([0-9]+(?:\.[0-9]+)*)", part)`: the operator
(greedy one-or-two characters of the class; regex backtracking from two to
one cannot succeed, because the rejected second character is neither
whitespace nor a digit) and the numeric components of the version group. -/
def matchSpecifier : List Char → Option (List Char × List Nat)
  | [] => none
  | c0 :: rest =>
    if !opChar c0 then none
    else
      let opRest :=
        match rest with
        | c1 :: r => if opChar c1 then ([c0, c1], r) else ([c0], rest)
        | [] => ([c0], [])
      let r2 := opRest.2.dropWhile Char.isWhitespace
      match r2 with
      | d :: r3 =>
        if d.isDigit then some (opRest.1, versionScan r3 (d.toNat - 48) [])
        else none
      | [] => none

/-- The body of the loop of `_derive_target_version_from_requires_python`
(example_ruff_parser.py:149-167) for one comma fragment: strip whitespace,
match the specifier regex, keep only the operators `=`, `==`, `>=`, `>`,
`~=`, and require at least major and minor components (the `int()`
conversion cannot fail on digit runs). -/
def fragmentPair (raw : List Char) : Option (Nat × Nat) :=
  let part := trimWs raw
  match matchSpecifier part with
  | none => none
  | some (op, comps) =>
    if op = ['='] || op = ['=', '='] || op = ['>', '='] || op = ['>'] ||
        op = ['~', '='] then
      match comps with
      | major :: minor :: _ => some (major, minor)
      | _ => none
    else none

/-- The contributing `(major, minor)` pairs of a requires-python specifier
string, in fragment order. -/
def requiresPairs (spec : String) : List (Nat × Nat) :=
  (splitOnChar ',' spec.data).filterMap fragmentPair

/-- Python `<` on `(major, minor)` tuples (lexicographic). -/
def pairLt (a b : Nat × Nat) : Bool :=
  a.1 < b.1 || (a.1 = b.1 && a.2 < b.2)

/-- Python `min(versions)` for a nonempty list: fold keeping the earliest
minimum. -/
def minPairs : Nat × Nat → List (Nat × Nat) → Nat × Nat
  | m, [] => m
  | m, p :: rest => minPairs (if pairLt p m then p else m) rest

/-- Lexicographic `≤` on `(major, minor)` pairs — the order under which
Python's `min` picks the minimum tuple. -/
def pairLe (a b : Nat × Nat) : Prop :=
  a.1 < b.1 ∨ (a.1 = b.1 ∧ a.2 ≤ b.2)

instance pairLeDecidable (a b : Nat × Nat) : Decidable (pairLe a b) :=
  inferInstanceAs (Decidable (a.1 < b.1 ∨ (a.1 = b.1 ∧ a.2 ≤ b.2)))

/-- The specification's notion for tool dispatch: `p` is the longest catalog
prefix that the selected entry `rule` starts with (spec §4.2,
`tools_for_selection`). -/
def isBestCatalogMatch (rule p : String) : Prop :=
  p ∈ RULE_PREFIX_MAPPING.map Prod.fst ∧ strStartsWith rule p = true ∧
  ∀ q ∈ RULE_PREFIX_MAPPING.map Prod.fst, strStartsWith rule q = true →
    q.length ≤ p.length

/-- `_derive_target_version_from_requires_python`
(example_ruff_parser.py:138-174): `None`/empty input gives `None`; otherwise
the minimum contributing pair formatted as `py{major}{minor}`; `None` when
no fragment contributes. -/
def deriveTargetVersion : Option String → Option String
  | none => none
  | some spec =>
    if spec = "" then none
    else
      match requiresPairs spec with
      | [] => none
      | v :: rest =>
        let m := minPairs v rest
        some ("py" ++ toString m.1 ++ toString m.2)

/-! ## Concrete configurations used by the testable properties -/

/-- Per-file-ignores table `{"__init__.py": ["F401","F403"]}` with no global
ignore list (spec §8, per-file ignores merge; `test_exact_filename_pattern`). -/
def cfgInitPfi : Config := tblOf [("lint", .table (tblOf
  [("per-file-ignores", .table (tblOf [("__init__.py", strArr ["F401", "F403"])]))]))]

/-- Grandparent of the three-level extend chain (spec §8):
`line-length=72, target-version="py38", select=["E"]`. -/
def gpCfg : Config := tblOf [("line-length", .int 72), ("target-version", .str "py38"),
  ("lint", .table (tblOf [("select", strArr ["E"])]))]

/-- Parent of the chain: `line-length=80, target-version="py39",
select=["E","F","W"]`, extending the grandparent. -/
def baseCfg : Config := tblOf [("extend", .str "grandparent.toml"),
  ("line-length", .int 80), ("target-version", .str "py39"),
  ("lint", .table (tblOf [("select", strArr ["E", "F", "W"])]))]

/-- Child of the chain: `line-length=100`, extending the parent. -/
def childCfg : Config := tblOf [("extend", .str "base.toml"), ("line-length", .int 100)]

/-- The filesystem of the three-level chain (the child is the entry point
and need not be on disk for `_resolve_extend`). -/
def fs3 : ConfigFS := [("grandparent.toml", gpCfg), ("base.toml", baseCfg)]

/-- `config_a.toml` of the mutual-extend cycle: extends `config_b.toml`,
`line-length=100`. -/
def cfgA : Config := tblOf [("extend", .str "config_b.toml"), ("line-length", .int 100)]

/-- `config_b.toml` of the cycle: extends `config_a.toml`, `line-length=80`. -/
def cfgB : Config := tblOf [("extend", .str "config_a.toml"), ("line-length", .int 80)]

/-- The two-file cyclic filesystem. -/
def fsAB : ConfigFS := [("config_a.toml", cfgA), ("config_b.toml", cfgB)]

/-- A document whose extend target does not exist on the (empty) filesystem. -/
def cfgMissing : Config := tblOf [("extend", .str "missing.toml"), ("line-length", .int 100)]

/-- A parent document whose own extend target is missing. -/
def parentMissing : Config := tblOf [("extend", .str "absent.toml"), ("line-length", .int 80)]

/-- A child extending `parentMissing` (which exists on disk). -/
def childOfMissing : Config := tblOf [("extend", .str "parent.toml")]

/-- The one-file filesystem holding `parentMissing`. -/
def fsParentMissing : ConfigFS := [("parent.toml", parentMissing)]

/-- `exclude=["vendor/","generated/"]` (spec §8, exclude precedence). -/
def cfgVendor : Config := tblOf [("exclude", strArr ["vendor/", "generated/"])]

/-- `exclude=["vendor/","generated/"]` plus `extend-exclude=["legacy/"]`. -/
def cfgVendorLegacy : Config := tblOf [("exclude", strArr ["vendor/", "generated/"]),
  ("extend-exclude", strArr ["legacy/"])]

/-- `lint.select=["E"]` with no ignore list. -/
def cfgSelectE : Config := tblOf [("lint", .table (tblOf [("select", strArr ["E"])]))]

/-- `lint.per-file-ignores={"__init__.py": ["F401"]}` together with
`lint.extend-per-file-ignores={"__init__.py": ["F403"]}`: the same pattern in
both tables, the aliasing case of `get_per_file_ignores`. -/
def cfgShared : Config := tblOf [("lint", .table (tblOf
  [("per-file-ignores", .table (tblOf [("__init__.py", strArr ["F401"])])),
   ("extend-per-file-ignores", .table (tblOf [("__init__.py", strArr ["F403"])]))]))]

/-! ## Theorems -/

/-- C2 (code_bug evaluation): with per-file-ignores
`{"__init__.py": ["F401","F403"]}` and no global ignores, the code ignores
F401 for `__init__.py` itself but NOT for `src/__init__.py` or
`pkg/sub/__init__.py`: `_matches_pattern` applies `fnmatch` to the full path
only and never to its base name, contradicting the spec (§4.1, §8) and the
repository's own test `test_exact_filename_pattern`
(tests/test_config_integration.py:172-186), which require a bare filename
pattern to match in any directory. -/
theorem c2_per_file_ignores_basename :
    isRuleIgnoredForFile cfgInitPfi "F401" "__init__.py" = true ∧
    isRuleIgnoredForFile cfgInitPfi "F401" "src/__init__.py" = false ∧
    isRuleIgnoredForFile cfgInitPfi "F403" "pkg/sub/__init__.py" = false ∧
    isRuleIgnoredForFile cfgInitPfi "F401" "main.py" = false :=
  ⟨rfl, rfl, rfl, rfl⟩

/-- C3: resolving the three-level chain grandparent → parent → child yields
`line-length=100` (child's override), `target-version="py39"` (parent's
override of the grandparent), and a selected-rules list containing E, F and
W (the parent's select, untouched by the child). -/
theorem c3_three_level_extend_chain :
    getLineLength (resolveExtend fs3 childCfg) = .int 100 ∧
    getTargetVersion (resolveExtend fs3 childCfg) = .str "py39" ∧
    "E" ∈ getSelectedRules (resolveExtend fs3 childCfg) ∧
    "F" ∈ getSelectedRules (resolveExtend fs3 childCfg) ∧
    "W" ∈ getSelectedRules (resolveExtend fs3 childCfg) := by
  refine ⟨rfl, rfl, ?_, ?_, ?_⟩ <;> · show _ ∈ ["E", "F", "W"]; decide

/-- C9 (code_bug evaluation): `get_per_file_ignores` shallow-copies the
stored per-file-ignores dict, so `ignores[pattern].extend(rules)` mutates
the list shared with the merged configuration whenever a pattern appears in
both `per-file-ignores` and `extend-per-file-ignores`.  First call returns
`["F401","F403"]`, the second call on the same loaded configuration returns
`["F401","F403","F403"]`, and the stored merged content itself changes —
contradicting the claim (and spec §3: "immutable once merged", §8:
round-trip idempotence). -/
theorem c9_get_per_file_ignores_mutates :
    getPerFileIgnores cfgShared = [("__init__.py", ["F401", "F403"])] ∧
    getPerFileIgnores (getPerFileIgnoresRun cfgShared).2 =
      [("__init__.py", ["F401", "F403", "F403"])] ∧
    getPerFileIgnores (getPerFileIgnoresRun cfgShared).2 ≠ getPerFileIgnores cfgShared ∧
    pfiOf (configGet (getLintConfig (getPerFileIgnoresRun cfgShared).2) "per-file-ignores") ≠
      pfiOf (configGet (getLintConfig cfgShared) "per-file-ignores") := by
  refine ⟨rfl, rfl, by decide, by decide⟩

/-- C10: the Config Facade's `is_rule_selected` uses plain string-prefix
matching: with `select` containing the single letter `E` and an empty ignore
list, every code starting with `E` is selected — including `EM101` and
`E801`, which the Rule Catalog predicate `_prefix_matches_code` rejects for
the prefix `E` — so the two prefix-matching notions disagree. -/
theorem c10_is_rule_selected_plain_startswith :
    (∀ (c : Config) (code : String), "E" ∈ getSelectedRules c →
      getIgnoredRules c = [] → strStartsWith code "E" = true →
      isRuleSelected c code = true) ∧
    isRuleSelected cfgSelectE "EM101" = true ∧
    isRuleSelected cfgSelectE "E801" = true ∧
    prefixMatchesCode "E" "EM101" = false ∧
    prefixMatchesCode "E" "E801" = false := by
  refine ⟨?_, rfl, rfl, rfl, rfl⟩
  intro c code hE hIgn hSW
  simp only [isRuleSelected, hIgn, List.not_mem_nil, if_false, List.any_nil,
    Bool.false_eq_true, List.any_eq_true]
  exact ⟨"E", hE, by simp [hSW]⟩

/-- C10 witness. -/
theorem c10_witness :
    "E" ∈ getSelectedRules cfgSelectE ∧ getIgnoredRules cfgSelectE = [] ∧
    strStartsWith "E999" "E" = true ∧ isRuleSelected cfgSelectE "E999" = true :=
  ⟨by decide, rfl, by decide,
   c10_is_rule_selected_plain_startswith.1 cfgSelectE "E999" (by decide) rfl (by decide)⟩

/-- Updating one key leaves lookups of a different key unchanged. -/
theorem configGet_configSet_ne : ∀ (t : TomlTbl) (k : String) (v : TomlVal)
    (key : String), k ≠ key → configGet (configSet t k v) key = configGet t key
  | .nil, k, v, key, hk => by
    simp [configSet, configGet, hk]
  | .cons k' w rest, k, v, key, hk => by
    by_cases hk' : k' = k
    · subst hk'
      simp [configSet, configGet, hk]
    · simp only [configSet, if_neg hk', configGet]
      by_cases hkey : k' = key
      · simp [hkey]
      · simp [hkey, configGet_configSet_ne rest k v key hk]

/-- The merge step never copies the child's `extend` key: the merged
result's `extend` entry is exactly the parent's. -/
theorem mergeConfigs_extend_eq : ∀ (child parent : TomlTbl),
    configGet (mergeConfigs parent child) "extend" = configGet parent "extend"
  | .nil, _ => rfl
  | .cons k v rest, parent => by
    rw [mergeConfigs.eq_def]
    dsimp only []
    by_cases hk : k = "extend"
    · rw [if_pos hk]
      exact mergeConfigs_extend_eq rest parent
    · rw [if_neg hk]
      rw [mergeConfigs_extend_eq rest]
      cases hm : configGet parent k with
      | none => cases v <;> exact configGet_configSet_ne parent k _ "extend" hk
      | some w => cases w <;> cases v <;> exact configGet_configSet_ne parent k _ "extend" hk

/-- A missing extend target drops the reference: the document is returned
unchanged (its own `extend` key included). -/
theorem resolveExtend_missing_target (fs : ConfigFS) (c : Config) (p : String)
    (h : configGet c "extend" = some (.str p)) (hp : p ≠ "")
    (hfs : alistGet fs p = none) : resolveExtend fs c = c := by
  unfold resolveExtend
  simp only [resolveExtendF, h, if_neg hp, hfs]

/-- C5 counterexample: the claim "the merged configuration never contains
the literal key `extend`" is false.  A document whose extend target does not
exist is returned as is, `extend` key included; and an ancestor's
unresolvable `extend` key survives the merge into the child's resolved
configuration. -/
theorem c5_counterexample :
    configGet (resolveExtend [] cfgMissing) "extend" = some (.str "missing.toml") ∧
    configGet (resolveExtend fsParentMissing childOfMissing) "extend" =
      some (.str "absent.toml") :=
  ⟨rfl, rfl⟩

/-- C5 as amended: the merge step itself never copies the child's `extend`
key (the merged result's `extend` entry is exactly the parent's), and when
the extend target file does not exist resolution returns the current
document unchanged — retaining its own `extend` key — so a resolved
configuration still contains `extend` whenever a chain link's target is
missing (or a cycle was broken). -/
theorem c5_extend_key_amended :
    (∀ parent child : TomlTbl,
      configGet (mergeConfigs parent child) "extend" = configGet parent "extend") ∧
    (∀ (fs : ConfigFS) (c : Config) (p : String),
      configGet c "extend" = some (.str p) → p ≠ "" → alistGet fs p = none →
      resolveExtend fs c = c) :=
  ⟨fun parent child => mergeConfigs_extend_eq child parent,
   resolveExtend_missing_target⟩

/-- C5 witness. -/
theorem c5_witness :
    configGet cfgMissing "extend" = some (.str "missing.toml") ∧
    alistGet ([] : ConfigFS) "missing.toml" = none ∧
    resolveExtend [] cfgMissing = cfgMissing ∧
    configGet (mergeConfigs parentMissing childOfMissing) "extend" =
      configGet parentMissing "extend" :=
  ⟨rfl, rfl, c5_extend_key_amended.2 [] cfgMissing "missing.toml" rfl (by decide) rfl,
   c5_extend_key_amended.1 parentMissing childOfMissing⟩

/-- C6: when the top-level `exclude` key is present the built-in defaults
are suppressed (the composed set is the configured list, then
`extend-exclude`, then the mode section's list); `extend-exclude` entries are
always in the composed set; and `is_file_excluded` is true exactly when some
pattern of the composed set glob-matches the normalised path or, with
trailing slashes stripped, occurs as a literal substring of it.  Concretely,
with `exclude=["vendor/","generated/"]` the path `.git/config` is not
excluded (while it is under the defaults), and `extend-exclude=["legacy/"]`
adds on top. -/
theorem c6_exclude_composition :
    (∀ (c : Config) (path : String) (mode : Option String),
      isFileExcluded c path mode = true ↔
        ∃ pat ∈ getExcludePatterns c mode,
          (matchesPattern (normSlashes path.data) pat.data = true ∨
           isSubstr (rstripSlashes pat.data) (normSlashes path.data) = true)) ∧
    (∀ (c : Config) (mode : Option String) (s : String),
      s ∈ strsOf (configGet c "extend-exclude") → s ∈ getExcludePatterns c mode) ∧
    (∀ (c : Config) (mode : Option String) (v : TomlVal),
      configGet c "exclude" = some v →
      getExcludePatterns c mode =
        (strsOf (some v) ++ strsOf (configGet c "extend-exclude")) ++
          (if mode = some "lint" then strsOf (configGet (getLintConfig c) "exclude")
           else if mode = some "format" then strsOf (configGet (getFormatConfig c) "exclude")
           else [])) ∧
    isFileExcluded cfgVendor ".git/config" none = false ∧
    isFileExcluded TomlTbl.nil ".git/config" none = true ∧
    isFileExcluded cfgVendorLegacy "legacy/util.py" none = true ∧
    isFileExcluded cfgVendorLegacy ".git/config" none = false := by
  refine ⟨?_, ?_, ?_, rfl, rfl, rfl, rfl⟩
  · intro c path mode
    simp only [isFileExcluded, List.any_eq_true, Bool.or_eq_true]
  · intro c mode s hs
    by_cases hl : mode = some "lint"
    · simp only [getExcludePatterns, if_pos hl]
      exact List.mem_append_left _ (List.mem_append_right _ hs)
    · by_cases hf : mode = some "format"
      · simp only [getExcludePatterns, if_neg hl, if_pos hf]
        exact List.mem_append_left _ (List.mem_append_right _ hs)
      · simp only [getExcludePatterns, if_neg hl, if_neg hf]
        exact List.mem_append_right _ hs
  · intro c mode v hv
    by_cases hl : mode = some "lint"
    · simp [getExcludePatterns, hv, hl]
    · by_cases hf : mode = some "format"
      · simp [getExcludePatterns, hv, hl, hf]
      · simp [getExcludePatterns, hv, hl, hf]

/-- C6 witness. -/
theorem c6_witness :
    (isFileExcluded cfgVendorLegacy "src/legacy/x.py" none = true ↔
      ∃ pat ∈ getExcludePatterns cfgVendorLegacy none,
        (matchesPattern (normSlashes "src/legacy/x.py".data) pat.data = true ∨
         isSubstr (rstripSlashes pat.data) (normSlashes "src/legacy/x.py".data) = true)) ∧
    "legacy/" ∈ strsOf (configGet cfgVendorLegacy "extend-exclude") ∧
    "legacy/" ∈ getExcludePatterns cfgVendorLegacy none ∧
    getExcludePatterns cfgVendorLegacy none =
      (strsOf (some (strArr ["vendor/", "generated/"])) ++
        strsOf (configGet cfgVendorLegacy "extend-exclude")) ++ [] :=
  ⟨c6_exclude_composition.1 cfgVendorLegacy "src/legacy/x.py" none,
   by decide,
   c6_exclude_composition.2.1 cfgVendorLegacy none "legacy/" (by decide),
   c6_exclude_composition.2.2.1 cfgVendorLegacy none (strArr ["vendor/", "generated/"]) rfl⟩

/-- A successful filesystem lookup means the path is among the keys. -/
theorem alistGet_mem_keys {a : Type} (l : List (String × a)) (k : String) (v : a)
    (h : alistGet l k = some v) : k ∈ l.map Prod.fst := by
  induction l with
  | nil => simp [alistGet] at h
  | cons pr rest ih =>
    by_cases hk : pr.1 = k
    · simp [hk]
    · rw [show alistGet (pr :: rest) k = alistGet rest k by
        cases pr; simp_all [alistGet]] at h
      simp [ih h]

/-- Filtering with a stronger predicate keeps at most as many elements. -/
theorem filter_length_le_of_imp (q r : String → Bool)
    (h : ∀ x, q x = true → r x = true) :
    ∀ L : List String, (L.filter q).length ≤ (L.filter r).length := by
  intro L
  induction L with
  | nil => simp
  | cons a t ih =>
    simp only [List.filter_cons]
    by_cases hqa : q a = true
    · rw [if_pos hqa, if_pos (h a hqa)]
      simpa using ih
    · rw [if_neg hqa]
      by_cases hra : r a = true
      · rw [if_pos hra]
        simp only [List.length_cons]
        exact Nat.le_succ_of_le ih
      · rw [if_neg hra]
        exact ih

/-- Adding to the seen set an element of the base list that was not yet seen
strictly shrinks the not-yet-seen filter. -/
theorem filter_notin_cons_lt (p : String) (seen : List String) (hns : p ∉ seen) :
    ∀ L : List String, p ∈ L →
      (L.filter fun k => decide (k ∉ p :: seen)).length <
      (L.filter fun k => decide (k ∉ seen)).length := by
  intro L hp
  induction L with
  | nil => cases hp
  | cons a t ih =>
    simp only [List.filter_cons]
    by_cases hap : a = p
    · subst hap
      have h1 : ¬ ((decide (a ∉ a :: seen)) = true) := by simp
      have h2 : (decide (a ∉ seen)) = true := by simpa using hns
      rw [if_neg h1, if_pos h2]
      simp only [List.length_cons]
      have hle := filter_length_le_of_imp
        (fun k => decide (k ∉ a :: seen)) (fun k => decide (k ∉ seen))
        (by intro x hx; simp at hx ⊢; exact hx.2) t
      omega
    · have hp' : p ∈ t := by
        cases hp with
        | head => exact absurd rfl hap
        | tail _ h => exact h
      have heq : (decide (a ∉ p :: seen)) = (decide (a ∉ seen)) := by
        apply decide_eq_decide.mpr
        simp [List.mem_cons, hap]
      rw [heq]
      by_cases hra : (decide (a ∉ seen)) = true
      · rw [if_pos hra, if_pos hra]
        simp only [List.length_cons]
        exact Nat.succ_lt_succ (ih hp')
      · rw [if_neg hra, if_neg hra]
        exact ih hp'

/-- Each recursion step of the extend resolver strictly shrinks the measure:
the followed path exists on the filesystem and was not yet seen. -/
theorem extMeasure_cons_lt (fs : ConfigFS) (p : String) (seen : List String)
    (hp : p ∈ fs.map Prod.fst) (hns : p ∉ seen) :
    extMeasure fs (p :: seen) < extMeasure fs seen :=
  filter_notin_cons_lt p seen hns _ (List.mem_dedup.mpr hp)

/-- Any two fuels above the measure give the same resolution result: the
recursion reaches its fixpoint within `extMeasure fs seen + 1` steps, i.e.
extend resolution terminates on every finite filesystem, cycles included. -/
theorem resolveExtendF_fuel_irrelevant (fs : ConfigFS) :
    ∀ (f1 f2 : Nat) (c : Config) (seen : List String),
      extMeasure fs seen < f1 → extMeasure fs seen < f2 →
      resolveExtendF fs f1 c seen = resolveExtendF fs f2 c seen := by
  intro f1
  induction f1 with
  | zero => intro f2 c seen h1 _; exact absurd h1 (Nat.not_lt_zero _)
  | succ n ih =>
    intro f2 c seen h1 h2
    cases f2 with
    | zero => exact absurd h2 (Nat.not_lt_zero _)
    | succ m =>
      rw [resolveExtendF.eq_def, resolveExtendF.eq_def]
      dsimp only []
      cases hg : configGet c "extend" with
      | none => rfl
      | some v =>
        cases v with
        | str p =>
          dsimp only []
          by_cases hp : p = ""
          · rw [if_pos hp, if_pos hp]
          · rw [if_neg hp, if_neg hp]
            cases hl : alistGet fs p with
            | none => rfl
            | some parentDoc =>
              dsimp only []
              by_cases hs : p ∈ seen
              · rw [if_pos hs, if_pos hs]
              · rw [if_neg hs, if_neg hs]
                have hmem : p ∈ fs.map Prod.fst := alistGet_mem_keys fs p parentDoc hl
                have hlt : extMeasure fs (p :: seen) < extMeasure fs seen :=
                  extMeasure_cons_lt fs p seen hmem hs
                rw [ih m parentDoc (p :: seen) (by omega) (by omega)]
        | int i => rfl
        | bool b => rfl
        | arr a => rfl
        | table t => rfl

/-- C4: extend resolution terminates for every finite filesystem, cycles
included — any fuel above the number of not-yet-seen filesystem paths gives
the same (fixpoint) result — and resolving `config_a.toml` of the mutual
cycle `config_a.toml` ⇄ `config_b.toml` yields the entry point's own
`line-length` of 100: the re-visit of an already-seen path is treated as
terminal. -/
theorem c4_cycle_termination :
    (∀ (fs : ConfigFS) (f1 f2 : Nat) (c : Config) (seen : List String),
      extMeasure fs seen < f1 → extMeasure fs seen < f2 →
      resolveExtendF fs f1 c seen = resolveExtendF fs f2 c seen) ∧
    getLineLength (resolveExtend fsAB cfgA) = .int 100 :=
  ⟨resolveExtendF_fuel_irrelevant, rfl⟩

/-- C4 witness. -/
theorem c4_witness :
    extMeasure fsAB [] < 3 ∧ extMeasure fsAB [] < 5 ∧
    resolveExtendF fsAB 3 cfgA [] = resolveExtendF fsAB 5 cfgA [] :=
  ⟨by decide, by decide, c4_cycle_termination.1 fsAB 3 5 cfgA [] (by decide) (by decide)⟩

/-- A list is a prefix of itself (Boolean form). -/
theorem isPrefixOf_self : ∀ l : List Char, l.isPrefixOf l = true := by
  intro l
  induction l with
  | nil => rfl
  | cons x t ih => simp [List.isPrefixOf, ih]

/-- C1: `_prefix_matches_code` returns true on exact equality; false when the
code does not start with the prefix; and for a single alphabetic-letter
prefix (of a code other than the prefix itself) it returns true exactly when
the character right after the prefix exists and is a digit and it is not the
case that the prefix is `E` with the code starting `E8`.  In particular
`("F","FBT001") = False`, `("F","F401") = True`, `("E","E801") = False`. -/
theorem c1_prefix_matches_code :
    (∀ p c : String, c = p → prefixMatchesCode p c = true) ∧
    (∀ p c : String, strStartsWith c p = false → prefixMatchesCode p c = false) ∧
    (∀ (a : Char) (c : String), a.isAlpha = true → c.data ≠ [a] →
      (prefixMatchesCode (String.mk [a]) c = true ↔
        ∃ (d : Char) (rest : List Char), c.data = a :: d :: rest ∧
          d.isDigit = true ∧ ¬(a = 'E' ∧ d = '8'))) ∧
    prefixMatchesCode "F" "FBT001" = false ∧
    prefixMatchesCode "F" "F401" = true ∧
    prefixMatchesCode "E" "E801" = false := by
  refine ⟨?_, ?_, ?_, rfl, rfl, rfl⟩
  · intro p c hc
    subst hc
    unfold prefixMatchesCode prefixMatchesCodeL
    rw [if_pos rfl]
  · intro p c h
    unfold strStartsWith at h
    have hne : c.data ≠ p.data := by
      intro he
      rw [he, isPrefixOf_self] at h
      cases h
    unfold prefixMatchesCode prefixMatchesCodeL
    rw [if_neg hne, h]
    rfl
  · intro a c ha hne
    show prefixMatchesCodeL [a] c.data = true ↔ _
    rcases hc : c.data with _ | ⟨c0, _ | ⟨c1, rest⟩⟩
    · constructor
      · intro h
        rw [show prefixMatchesCodeL [a] [] = false by rfl] at h
        cases h
      · rintro ⟨d, r', heq, -, -⟩
        cases heq
    · constructor
      · intro h
        have hc0 : ¬ ([c0] = [a]) := by
          rw [hc] at hne
          exact hne
        have hc0' : c0 ≠ a := fun he => hc0 (by rw [he])
        unfold prefixMatchesCodeL at h
        rw [if_neg hc0] at h
        rw [show (!([a].isPrefixOf [c0])) = true by
          simp [List.isPrefixOf]
          exact fun he => hc0' he.symm] at h
        cases h
      · rintro ⟨d, r', heq, -, -⟩
        cases heq
    · have hRHS : (∃ (d : Char) (r' : List Char), c0 :: c1 :: rest = a :: d :: r' ∧
          d.isDigit = true ∧ ¬(a = 'E' ∧ d = '8')) ↔
          (c0 = a ∧ c1.isDigit = true ∧ ¬(a = 'E' ∧ c1 = '8')) := by
        constructor
        · rintro ⟨d, r', heq, hd, hE⟩
          obtain ⟨h0, h1, h2⟩ : c0 = a ∧ c1 = d ∧ rest = r' := by
            simpa using heq
          subst h0; subst h1
          exact ⟨rfl, hd, hE⟩
        · rintro ⟨h0, hd, hE⟩
          subst h0
          exact ⟨c1, rest, rfl, hd, hE⟩
      rw [hRHS]
      by_cases hac : c0 = a
      · subst hac
        constructor
        · intro h
          unfold prefixMatchesCodeL at h
          rw [if_neg (by simp)] at h
          rw [show (!([c0].isPrefixOf (c0 :: c1 :: rest))) = false by
            simp [List.isPrefixOf]] at h
          rw [if_neg (by simp)] at h
          dsimp only [] at h
          rw [if_pos ha] at h
          by_cases hd : c1.isDigit = true
          · refine ⟨rfl, hd, ?_⟩
            rintro ⟨hE1, hE2⟩
            subst hE1; subst hE2
            rw [show (!('8' : Char).isDigit) = false by rfl] at h
            rw [if_neg (by simp)] at h
            rw [if_pos (by simp [List.isPrefixOf])] at h
            cases h
          · exfalso
            have hd' : c1.isDigit = false := by simpa using hd
            rw [if_pos (by simp [hd'])] at h
            cases h
        · rintro ⟨-, hd, hE⟩
          unfold prefixMatchesCodeL
          rw [if_neg (by simp)]
          rw [show (!([c0].isPrefixOf (c0 :: c1 :: rest))) = false by simp [List.isPrefixOf]]
          rw [if_neg (by simp)]
          dsimp only []
          rw [if_pos ha]
          rw [show (!c1.isDigit) = false by simp [hd]]
          rw [if_neg (by simp)]
          rw [if_neg (show ¬ (((decide ([c0] = ['E'])) &&
              (['E', '8'].isPrefixOf (c0 :: c1 :: rest))) = true) by
            simp [List.isPrefixOf]
            intro h1 h2 h3
            exact hE ⟨h1, h3.symm⟩)]
      · constructor
        · intro h
          exfalso
          unfold prefixMatchesCodeL at h
          rw [if_neg (show ¬ (c0 :: c1 :: rest = [a]) by simp)] at h
          rw [show (!([a].isPrefixOf (c0 :: c1 :: rest))) = true by
            simp [List.isPrefixOf]
            exact fun he => hac he.symm] at h
          cases h
        · rintro ⟨h0, -, -⟩
          exact absurd h0 hac

/-- C1 witness. -/
theorem c1_witness :
    prefixMatchesCode "E501" "E501" = true ∧
    strStartsWith "RUF001" "ANN" = false ∧
    prefixMatchesCode "ANN" "RUF001" = false ∧
    (prefixMatchesCode (String.mk ['W']) "W605" = true ↔
      ∃ (d : Char) (rest : List Char), "W605".data = 'W' :: d :: rest ∧
        d.isDigit = true ∧ ¬('W' = 'E' ∧ d = '8')) :=
  ⟨c1_prefix_matches_code.1 "E501" "E501" rfl,
   by decide,
   c1_prefix_matches_code.2.1 "ANN" "RUF001" (by decide),
   c1_prefix_matches_code.2.2.1 'W' "W605" (by decide) (by decide)⟩

/-- Python `min` on tuples is the lexicographic minimum: order facts. -/
theorem pairLe_refl (a : Nat × Nat) : pairLe a a := Or.inr ⟨rfl, Nat.le_refl _⟩

theorem pairLt_le {a b : Nat × Nat} (h : pairLt a b = true) : pairLe a b := by
  simp [pairLt] at h
  simp [pairLe]
  omega

theorem pairLe_of_not_lt {a b : Nat × Nat} (h : ¬(pairLt a b = true)) : pairLe b a := by
  simp [pairLt] at h
  simp [pairLe]
  omega

theorem pairLe_trans {a b c : Nat × Nat} (h1 : pairLe a b) (h2 : pairLe b c) :
    pairLe a c := by
  simp [pairLe] at h1 h2 ⊢
  omega

theorem pairLe_antisymm {a b : Nat × Nat} (h1 : pairLe a b) (h2 : pairLe b a) :
    a = b := by
  simp [pairLe] at h1 h2
  have e1 : a.1 = b.1 := by omega
  have e2 : a.2 = b.2 := by omega
  exact Prod.ext e1 e2

theorem minPairs_mem : ∀ (rest : List (Nat × Nat)) (m : Nat × Nat),
    minPairs m rest ∈ m :: rest := by
  intro rest
  induction rest with
  | nil => intro m; simp [minPairs]
  | cons p t ih =>
    intro m
    rw [show minPairs m (p :: t) = minPairs (if pairLt p m then p else m) t from rfl]
    rcases List.mem_cons.mp (ih (if pairLt p m then p else m)) with h1 | h2
    · rw [h1]
      by_cases hpm : pairLt p m = true
      · rw [if_pos hpm]
        simp
      · rw [if_neg hpm]
        simp
    · exact List.mem_cons_of_mem _ (List.mem_cons_of_mem _ h2)

theorem minPairs_le : ∀ (rest : List (Nat × Nat)) (m q : Nat × Nat),
    q ∈ m :: rest → pairLe (minPairs m rest) q := by
  intro rest
  induction rest with
  | nil =>
    intro m q hq
    rcases List.mem_cons.mp hq with h | h
    · rw [h]; exact pairLe_refl m
    · cases h
  | cons p t ih =>
    intro m q hq
    rw [show minPairs m (p :: t) = minPairs (if pairLt p m then p else m) t from rfl]
    have hm'm : pairLe (if pairLt p m then p else m) m := by
      by_cases hpm : pairLt p m = true
      · rw [if_pos hpm]; exact pairLt_le hpm
      · rw [if_neg hpm]; exact pairLe_refl m
    have hm'p : pairLe (if pairLt p m then p else m) p := by
      by_cases hpm : pairLt p m = true
      · rw [if_pos hpm]; exact pairLe_refl p
      · rw [if_neg hpm]; exact pairLe_of_not_lt hpm
    have hmin : pairLe (minPairs (if pairLt p m then p else m) t)
        (if pairLt p m then p else m) :=
      ih _ _ (List.mem_cons_self _ _)
    rcases List.mem_cons.mp hq with h | h
    · rw [h]; exact pairLe_trans hmin hm'm
    · rcases List.mem_cons.mp h with h2 | h3
      · rw [h2]; exact pairLe_trans hmin hm'p
      · exact ih _ q (List.mem_cons_of_mem _ h3)

/-- C8: deriving a target version from a requires-python specifier: `None`
(or empty) input derives nothing; the result is `None` exactly when no comma
fragment contributes a pair (a fragment contributes only with an operator
among `>=`, `>`, `==`, `=`, `~=` and at least major and minor components);
and when `m` is the minimum contributing pair the result is
`py{major}{minor}` for `m`.  Concretes: `<=`, `<`, `!=` fragments and
fragments without a minor component contribute nothing, and the minimum pair
across fragments wins. -/
theorem c8_derive_target_version :
    deriveTargetVersion none = none ∧
    (∀ s : String, deriveTargetVersion (some s) = none ↔ requiresPairs s = []) ∧
    (∀ (s : String) (m : Nat × Nat), m ∈ requiresPairs s →
      (∀ q ∈ requiresPairs s, pairLe m q) →
      deriveTargetVersion (some s) = some ("py" ++ toString m.1 ++ toString m.2)) ∧
    deriveTargetVersion (some ">=3.8") = some "py38" ∧
    deriveTargetVersion (some ">=3.8, <4.0") = some "py38" ∧
    deriveTargetVersion (some "<=3.6,>=3.8") = some "py38" ∧
    deriveTargetVersion (some ">3.12, ==3.9") = some "py39" ∧
    deriveTargetVersion (some "~=2.7") = some "py27" ∧
    deriveTargetVersion (some ">=3") = none := by
  refine ⟨rfl, ?_, ?_, rfl, rfl, rfl, rfl, rfl, rfl⟩
  · intro s
    by_cases hs : s = ""
    · subst hs
      exact ⟨fun _ => rfl, fun _ => rfl⟩
    · unfold deriveTargetVersion
      dsimp only []
      rw [if_neg hs]
      cases hp : requiresPairs s with
      | nil => simp
      | cons v rest => simp
  · intro s m hm hle
    have hs : s ≠ "" := by
      intro he
      subst he
      rw [show requiresPairs "" = [] from rfl] at hm
      cases hm
    unfold deriveTargetVersion
    dsimp only []
    rw [if_neg hs]
    cases hp : requiresPairs s with
    | nil => rw [hp] at hm; cases hm
    | cons v rest =>
      rw [hp] at hm hle
      have h2 : pairLe (minPairs v rest) m := minPairs_le rest v m hm
      have h3 : pairLe m (minPairs v rest) := hle _ (minPairs_mem rest v)
      dsimp only []
      rw [← pairLe_antisymm h3 h2]

/-- C8 witness. -/
theorem c8_witness : (3, 8) ∈ requiresPairs ">=3.10,>=3.8" ∧
    (∀ q ∈ requiresPairs ">=3.10,>=3.8", pairLe (3, 8) q) ∧
    deriveTargetVersion (some ">=3.10,>=3.8") = some ("py" ++ toString 3 ++ toString 8) ∧
    (deriveTargetVersion (some "x") = none ↔ requiresPairs "x" = []) :=
  ⟨by decide, by decide,
   c8_derive_target_version.2.2.1 ">=3.10,>=3.8" (3, 8) (by decide) (by decide),
   c8_derive_target_version.2.1 "x"⟩

/-- Boolean list-prefix agrees with the prefix order. -/
theorem isPrefixOf_iff : ∀ (p l : List Char), p.isPrefixOf l = true ↔ p <+: l := by
  intro p
  induction p with
  | nil => intro l; simp [List.isPrefixOf]
  | cons a t ih =>
    intro l
    cases l with
    | nil => simp [List.isPrefixOf]
    | cons b m => simp [List.isPrefixOf, List.cons_prefix_cons, ih]

theorem bestCond_eq (rule q : String) :
    ((decide (rule = q)) || strStartsWith rule q) = strStartsWith rule q := by
  by_cases h : rule = q
  · subst h
    simp [strStartsWith, isPrefixOf_self]
  · simp [h]

theorem bestStep_none (rule : String) (pr : String × String)
    (h : strStartsWith rule pr.1 = false) (acc : Option String) :
    bestStep rule acc pr = acc := by
  unfold bestStep
  rw [if_neg (by rw [bestCond_eq]; simp [h])]

theorem bestStep_match_none (rule : String) (pr : String × String)
    (h : strStartsWith rule pr.1 = true) : bestStep rule none pr = some pr.1 := by
  unfold bestStep
  rw [if_pos (by rw [bestCond_eq]; exact h)]

theorem bestStep_match_some (rule : String) (pr : String × String) (a0 : String)
    (h : strStartsWith rule pr.1 = true) :
    bestStep rule (some a0) pr =
      if pr.1.length > a0.length then some pr.1 else some a0 := by
  unfold bestStep
  rw [if_pos (by rw [bestCond_eq]; exact h)]

theorem startswith_eq_of_length (rule p q : String)
    (hp : strStartsWith rule p = true) (hq : strStartsWith rule q = true)
    (hlen : p.length = q.length) : p = q := by
  unfold strStartsWith at hp hq
  rw [isPrefixOf_iff] at hp hq
  obtain ⟨t1, ht1⟩ := hp
  obtain ⟨t2, ht2⟩ := hq
  have heq : p.data ++ t1 = q.data ++ t2 := by rw [ht1, ht2]
  have hdl : p.data.length = q.data.length := hlen
  have hdata : p.data = q.data := (List.append_inj heq hdl).1
  cases p with
  | mk pd =>
    cases q with
    | mk qd => exact congrArg String.mk hdata

theorem bestFold_some_spec (rule : String) :
    ∀ (L : List (String × String)) (acc : Option String) (b : String),
      L.foldl (bestStep rule) acc = some b →
      (acc = some b ∨ (b ∈ L.map Prod.fst ∧ strStartsWith rule b = true)) ∧
      (∀ a, acc = some a → a.length ≤ b.length) ∧
      (∀ q ∈ L.map Prod.fst, strStartsWith rule q = true → q.length ≤ b.length) := by
  intro L
  induction L with
  | nil =>
    intro acc b h
    rw [List.foldl_nil] at h
    refine ⟨Or.inl h, ?_, ?_⟩
    · intro a ha
      rw [ha] at h
      injection h with h'
      rw [h']
    · intro q hq _
      simp at hq
  | cons pr t ih =>
    intro acc b h
    rw [List.foldl_cons] at h
    by_cases hc : strStartsWith rule pr.1 = true
    · cases acc with
      | none =>
        rw [bestStep_match_none rule pr hc] at h
        have IH := ih (some pr.1) b h
        have hpr_le : pr.1.length ≤ b.length := IH.2.1 pr.1 rfl
        refine ⟨?_, ?_, ?_⟩
        · right
          rcases IH.1 with h1 | h1
          · injection h1 with h1'
            refine ⟨?_, ?_⟩
            · rw [List.map_cons, ← h1']
              exact List.mem_cons_self _ _
            · rw [← h1']; exact hc
          · exact ⟨by rw [List.map_cons]; exact List.mem_cons_of_mem _ h1.1, h1.2⟩
        · intro a ha
          cases ha
        · intro q hq hqs
          rw [List.map_cons] at hq
          rcases List.mem_cons.mp hq with he | hm
          · rw [he]; exact hpr_le
          · exact IH.2.2 q hm hqs
      | some a0 =>
        rw [bestStep_match_some rule pr a0 hc] at h
        by_cases hlen : pr.1.length > a0.length
        · rw [if_pos hlen] at h
          have IH := ih (some pr.1) b h
          have hpr_le : pr.1.length ≤ b.length := IH.2.1 pr.1 rfl
          refine ⟨?_, ?_, ?_⟩
          · right
            rcases IH.1 with h1 | h1
            · injection h1 with h1'
              refine ⟨?_, ?_⟩
              · rw [List.map_cons, ← h1']
                exact List.mem_cons_self _ _
              · rw [← h1']; exact hc
            · exact ⟨by rw [List.map_cons]; exact List.mem_cons_of_mem _ h1.1, h1.2⟩
          · intro a ha
            injection ha with ha'
            subst ha'
            omega
          · intro q hq hqs
            rw [List.map_cons] at hq
            rcases List.mem_cons.mp hq with he | hm
            · rw [he]; exact hpr_le
            · exact IH.2.2 q hm hqs
        · rw [if_neg hlen] at h
          have IH := ih (some a0) b h
          have ha0_le : a0.length ≤ b.length := IH.2.1 a0 rfl
          refine ⟨?_, ?_, ?_⟩
          · rcases IH.1 with h1 | h1
            · exact Or.inl h1
            · exact Or.inr ⟨by rw [List.map_cons]; exact List.mem_cons_of_mem _ h1.1, h1.2⟩
          · intro a ha
            injection ha with ha'
            subst ha'
            exact ha0_le
          · intro q hq hqs
            rw [List.map_cons] at hq
            rcases List.mem_cons.mp hq with he | hm
            · rw [he]; omega
            · exact IH.2.2 q hm hqs
    · have hc' : strStartsWith rule pr.1 = false := by
        cases hcv : strStartsWith rule pr.1
        · rfl
        · exact absurd hcv hc
      rw [bestStep_none rule pr hc' acc] at h
      have IH := ih acc b h
      refine ⟨?_, IH.2.1, ?_⟩
      · rcases IH.1 with h1 | h1
        · exact Or.inl h1
        · exact Or.inr ⟨by rw [List.map_cons]; exact List.mem_cons_of_mem _ h1.1, h1.2⟩
      · intro q hq hqs
        rw [List.map_cons] at hq
        rcases List.mem_cons.mp hq with he | hm
        · rw [he] at hqs
          rw [hqs] at hc'
          cases hc'
        · exact IH.2.2 q hm hqs

theorem bestFold_none_spec (rule : String) :
    ∀ (L : List (String × String)) (acc : Option String),
      L.foldl (bestStep rule) acc = none →
      acc = none ∧ ∀ q ∈ L.map Prod.fst, strStartsWith rule q = false := by
  intro L
  induction L with
  | nil =>
    intro acc h
    rw [List.foldl_nil] at h
    refine ⟨h, ?_⟩
    intro q hq
    simp at hq
  | cons pr t ih =>
    intro acc h
    rw [List.foldl_cons] at h
    have IH := ih (bestStep rule acc pr) h
    by_cases hc : strStartsWith rule pr.1 = true
    · exfalso
      cases acc with
      | none =>
        rw [bestStep_match_none rule pr hc] at IH
        cases IH.1
      | some a0 =>
        rw [bestStep_match_some rule pr a0 hc] at IH
        rcases IH with ⟨h1, -⟩
        by_cases hlen : pr.1.length > a0.length
        · rw [if_pos hlen] at h1; cases h1
        · rw [if_neg hlen] at h1; cases h1
    · have hc' : strStartsWith rule pr.1 = false := by
        cases hcv : strStartsWith rule pr.1
        · rfl
        · exact absurd hcv hc
      rw [bestStep_none rule pr hc' acc] at IH
      refine ⟨IH.1, ?_⟩
      intro q hq
      rw [List.map_cons] at hq
      rcases List.mem_cons.mp hq with he | hm
      · rw [he]; exact hc'
      · exact IH.2 q hm

theorem bestMatchFor_some_iff (rule p : String) :
    bestMatchFor rule = some p ↔ isBestCatalogMatch rule p := by
  constructor
  · intro h
    have spec := bestFold_some_spec rule RULE_PREFIX_MAPPING none p h
    rcases spec.1 with h1 | h1
    · cases h1
    · exact ⟨h1.1, h1.2, spec.2.2⟩
  · rintro ⟨hmem, hsw, hdom⟩
    cases hb : bestMatchFor rule with
    | none =>
      have hn := bestFold_none_spec rule RULE_PREFIX_MAPPING none hb
      rw [hn.2 p hmem] at hsw
      cases hsw
    | some b =>
      have spec := bestFold_some_spec rule RULE_PREFIX_MAPPING none b hb
      rcases spec.1 with h1 | h1
      · cases h1
      · have hle1 : p.length ≤ b.length := spec.2.2 p hmem hsw
        have hle2 : b.length ≤ p.length := hdom b h1.1 h1.2
        rw [startswith_eq_of_length rule p b hsw h1.2 (Nat.le_antisymm hle1 hle2)]

theorem setInsert_mem (s : List String) (x t : String) :
    t ∈ setInsert s x ↔ t ∈ s ∨ t = x := by
  unfold setInsert
  by_cases h : x ∈ s
  · rw [if_pos h]
    constructor
    · exact Or.inl
    · rintro (h1 | h1)
      · exact h1
      · rw [h1]; exact h
  · rw [if_neg h]
    simp [List.mem_append]

theorem setUnion_mem : ∀ (xs s : List String) (t : String),
    t ∈ setUnion s xs ↔ t ∈ s ∨ t ∈ xs := by
  intro xs
  induction xs with
  | nil => intro s t; simp [setUnion]
  | cons x rest ih =>
    intro s t
    have step : setUnion s (x :: rest) = setUnion (setInsert s x) rest := rfl
    rw [step, ih (setInsert s x) t, setInsert_mem]
    simp [List.mem_cons]
    tauto

theorem alistGet_mem_values {a : Type} (l : List (String × a)) (k : String) (v : a)
    (h : alistGet l k = some v) : v ∈ l.map Prod.snd := by
  induction l with
  | nil => simp [alistGet] at h
  | cons pr rest ih =>
    by_cases hk : pr.1 = k
    · have : alistGet (pr :: rest) k = some pr.2 := by
        cases pr
        simp_all [alistGet]
      rw [this] at h
      injection h with h'
      rw [List.map_cons, ← h']
      exact List.mem_cons_self _ _
    · rw [show alistGet (pr :: rest) k = alistGet rest k by
        cases pr; simp_all [alistGet]] at h
      rw [List.map_cons]
      exact List.mem_cons_of_mem _ (ih h)

theorem toolsLoop_all : ∀ (sel tools : List String),
    "ALL" ∈ sel → (∀ x ∈ tools, x ∈ RULE_PREFIX_MAPPING.map Prod.snd) →
    ∀ t, t ∈ toolsLoop sel tools ↔ t ∈ RULE_PREFIX_MAPPING.map Prod.snd := by
  intro sel
  induction sel with
  | nil => intro tools h; cases h
  | cons r rest ih =>
    intro tools hALL hsub t
    rw [toolsLoop.eq_def]
    dsimp only []
    by_cases hr : r = "ALL"
    · rw [if_pos hr, setUnion_mem]
      constructor
      · rintro (h1 | h1)
        · exact hsub t h1
        · exact h1
      · exact Or.inr
    · rw [if_neg hr]
      have hALL' : "ALL" ∈ rest := by
        cases hALL with
        | head => exact absurd rfl hr
        | tail _ h => exact h
      cases hb : bestMatchFor r with
      | none =>
        dsimp only []
        exact ih tools hALL' hsub t
      | some b =>
        dsimp only []
        cases hl : alistGet RULE_PREFIX_MAPPING b with
        | none =>
          dsimp only []
          exact ih tools hALL' hsub t
        | some tl =>
          dsimp only []
          refine ih (setInsert tools tl) hALL' ?_ t
          intro x hx
          rcases (setInsert_mem tools tl x).mp hx with h1 | h1
          · exact hsub x h1
          · rw [h1]
            exact alistGet_mem_values _ _ _ hl

theorem toolsLoop_mem : ∀ (sel tools : List String) (t : String),
    "ALL" ∉ sel →
    (t ∈ toolsLoop sel tools ↔ t ∈ tools ∨
      ∃ r ∈ sel, ∃ p tl, bestMatchFor r = some p ∧
        alistGet RULE_PREFIX_MAPPING p = some tl ∧ tl = t) := by
  intro sel
  induction sel with
  | nil =>
    intro tools t _
    simp [toolsLoop]
  | cons r rest ih =>
    intro tools t hALL
    have hr : r ≠ "ALL" := fun h => hALL (by rw [h]; exact List.mem_cons_self _ _)
    have hALL' : "ALL" ∉ rest := fun h => hALL (List.mem_cons_of_mem _ h)
    rw [toolsLoop.eq_def]
    dsimp only []
    rw [if_neg hr]
    cases hb : bestMatchFor r with
    | none =>
      dsimp only []
      rw [ih tools t hALL']
      constructor
      · rintro (h | ⟨r1, hr1, p, tl, h1, h2, h3⟩)
        · exact Or.inl h
        · exact Or.inr ⟨r1, List.mem_cons_of_mem _ hr1, p, tl, h1, h2, h3⟩
      · rintro (h | ⟨r1, hr1, p, tl, h1, h2, h3⟩)
        · exact Or.inl h
        · rcases List.mem_cons.mp hr1 with he | hm
          · subst he
            rw [hb] at h1
            cases h1
          · exact Or.inr ⟨r1, hm, p, tl, h1, h2, h3⟩
    | some b =>
      dsimp only []
      cases hl : alistGet RULE_PREFIX_MAPPING b with
      | none =>
        dsimp only []
        rw [ih tools t hALL']
        constructor
        · rintro (h | ⟨r1, hr1, p, tl, h1, h2, h3⟩)
          · exact Or.inl h
          · exact Or.inr ⟨r1, List.mem_cons_of_mem _ hr1, p, tl, h1, h2, h3⟩
        · rintro (h | ⟨r1, hr1, p, tl, h1, h2, h3⟩)
          · exact Or.inl h
          · rcases List.mem_cons.mp hr1 with he | hm
            · subst he
              rw [hb] at h1
              injection h1 with h1'
              subst h1'
              rw [hl] at h2
              cases h2
            · exact Or.inr ⟨r1, hm, p, tl, h1, h2, h3⟩
      | some tl0 =>
        dsimp only []
        rw [ih (setInsert tools tl0) t hALL', setInsert_mem]
        constructor
        · rintro ((h | h) | ⟨r1, hr1, p, tl, h1, h2, h3⟩)
          · exact Or.inl h
          · exact Or.inr ⟨r, List.mem_cons_self _ _, b, tl0, hb, hl, h.symm⟩
          · exact Or.inr ⟨r1, List.mem_cons_of_mem _ hr1, p, tl, h1, h2, h3⟩
        · rintro (h | ⟨r1, hr1, p, tl, h1, h2, h3⟩)
          · exact Or.inl (Or.inl h)
          · rcases List.mem_cons.mp hr1 with he | hm
            · subst he
              rw [hb] at h1
              injection h1 with h1'
              subst h1'
              rw [hl] at h2
              injection h2 with h2'
              subst h2'
              exact Or.inl (Or.inr h3.symm)
            · exact Or.inr ⟨r1, hm, p, tl, h1, h2, h3⟩

/-- C7: tool dispatch from a rule selection.  With the literal token `ALL`
present, `get_tools_for_rules` yields exactly the set of every tool in the
catalog.  Otherwise a tool is in the result exactly when some selected entry
has a longest matching catalog prefix owned by that tool (longest-match
wins; entries matching no catalog prefix contribute nothing).  Concretely,
`["PLC0414"]` yields exactly the pylint tool and never `E`'s tool flake8,
and `["FLY002"]` yields flynt, not flake8 (`F` also matches but is
shorter). -/
theorem c7_tools_for_rules :
    (∀ sel : List String, "ALL" ∈ sel →
      ∀ t, t ∈ getToolsForRules sel ↔ t ∈ RULE_PREFIX_MAPPING.map Prod.snd) ∧
    (∀ (sel : List String) (t : String), "ALL" ∉ sel →
      (t ∈ getToolsForRules sel ↔
        ∃ r ∈ sel, ∃ p tl, isBestCatalogMatch r p ∧
          alistGet RULE_PREFIX_MAPPING p = some tl ∧ tl = t)) ∧
    getToolsForRules ["PLC0414"] = ["pylint"] ∧
    alistGet RULE_PREFIX_MAPPING "E" = some "flake8" ∧
    "flake8" ∉ getToolsForRules ["PLC0414"] ∧
    getToolsForRules ["FLY002"] = ["flynt"] := by
  refine ⟨?_, ?_, rfl, rfl, by decide, rfl⟩
  · intro sel hALL t
    exact toolsLoop_all sel [] hALL (by simp) t
  · intro sel t hALL
    rw [show getToolsForRules sel = toolsLoop sel [] from rfl,
      toolsLoop_mem sel [] t hALL]
    simp only [List.not_mem_nil, false_or]
    constructor
    · rintro ⟨r, hr, p, tl, h1, h2, h3⟩
      exact ⟨r, hr, p, tl, (bestMatchFor_some_iff r p).mp h1, h2, h3⟩
    · rintro ⟨r, hr, p, tl, h1, h2, h3⟩
      exact ⟨r, hr, p, tl, (bestMatchFor_some_iff r p).mpr h1, h2, h3⟩

/-- C7 witness. -/
theorem c7_witness :
    ("ALL" ∈ (["ALL"] : List String)) ∧
    (∀ t, t ∈ getToolsForRules ["ALL"] ↔ t ∈ RULE_PREFIX_MAPPING.map Prod.snd) ∧
    ("ALL" ∉ (["PLC0414"] : List String)) ∧
    ("pylint" ∈ getToolsForRules ["PLC0414"] ↔
      ∃ r ∈ (["PLC0414"] : List String), ∃ p tl, isBestCatalogMatch r p ∧
        alistGet RULE_PREFIX_MAPPING p = some tl ∧ tl = "pylint") :=
  ⟨by decide, c7_tools_for_rules.1 ["ALL"] (by decide),
   by decide, c7_tools_for_rules.2.1 ["PLC0414"] "pylint" (by decide)⟩
